import Mathlib

/-!
Shallow embedding of the gpumathsgo batched accelerator pipeline
(package gpumaths): variant selection, sizing arithmetic, upload
serialization, stream construction and teardown traces, the fallback
stub build, and the stream-pool checkout discipline.
-/

namespace Gpumaths

/-- The three fixed-width execution variants of the GPU build
(`gpumaths2048`, `gpumaths3200`, `gpumaths4096` in gpu.go). -/
inductive Variant where
  | v2048
  | v3200
  | v4096
deriving DecidableEq, Repr

/-- `getBitLen` of each variant, from gpu.go: the literal constants
2048, 3200 and 4096. -/
def getBitLen : Variant → Nat
  | .v2048 => 2048
  | .v3200 => 3200
  | .v4096 => 4096

/-- `getByteLen` of each variant, from gpu.go: the source computes the
literal quotients 2048 / 8, 3200 / 8 and 4096 / 8. -/
def getByteLen : Variant → Nat
  | .v2048 => 2048 / 8
  | .v3200 => 3200 / 8
  | .v4096 => 4096 / 8

/-- The configured bit widths, in the order `chooseEnv` tries them. -/
def supportedWidths : List Nat :=
  [getBitLen .v2048, getBitLen .v3200, getBitLen .v4096]

/-- `chooseEnv` from gpu.go, applied to the prime's bit length
(`g.GetP().BitLen()`).  The source compares against the three variants'
`getBitLen` in increasing order and panics when the prime is too big for
any environment; the panic is represented by `none`. -/
def chooseEnv (primeLen : Nat) : Option Variant :=
  let len2048 := getBitLen .v2048
  let len3200 := getBitLen .v3200
  let len4096 := getBitLen .v4096
  if primeLen ≤ len2048 then some .v2048
  else if primeLen ≤ len3200 then some .v3200
  else if primeLen ≤ len4096 then some .v4096
  else none

/-- Per-kernel byte sizes reported by the native library for one
variant and operation kind: `getConstantsSize`, `getInputSize` and
`getOutputSize` in gpu.go are thin wrappers over native calls
(`C.getConstantsSizeNNNN` etc.), so the concrete values live outside
this repository and are parameters here.  Go `int` values are modelled
as `Int`. -/
structure KernelSizes where
  constantsSize : Int
  inputSize : Int
  outputSize : Int
deriving DecidableEq, Repr

/-- `maxSlots` from gpu.go (identical bodies on all three variants):
subtract the constants region from the memory size, return 0 when that
is negative, otherwise divide by the per-slot size
(`getInputSize + getOutputSize`).  Go's `/` on int truncates toward
zero, which is `Int.tdiv`. -/
def maxSlots (g : KernelSizes) (memSize : Int) : Int :=
  let constantsSize := g.constantsSize
  let slotSize := g.inputSize + g.outputSize
  let memForSlots := memSize - constantsSize
  if memForSlots < 0 then 0
  else memForSlots.tdiv slotSize

/-- `streamSizeContaining` from gpu.go (identical bodies on all three
variants): input size times the item count, plus output size times the
item count, plus the constants size. -/
def streamSizeContaining (g : KernelSizes) (numItems : Int) : Int :=
  g.inputSize * numItems + g.outputSize * numItems + g.constantsSize

/-- The exact sequence of (index, value) stores performed by `putInt`
in gpu.go, in program order: the first loop stores `dst[n2-i-1] = src[i]`
for `i = 0 .. n2-1` (with `n2 = len(src)`), the second stores `dst[i] = 0`
for `i = n2 .. n-1`. -/
def putIntWrites (src : List Nat) (n : Nat) : List (Nat × Nat) :=
  (List.range src.length).map (fun i => (src.length - i - 1, src.getD i 0)) ++
  (List.range' src.length (n - src.length)).map (fun i => (i, 0))

/-- Perform a sequence of (index, value) stores on a buffer, in order. -/
def applyWrites (dst : List Nat) (ws : List (Nat × Nat)) : List Nat :=
  ws.foldl (fun d w => d.set w.1 w.2) dst

/-- `putInt` from gpu.go: the destination buffer after performing the
two store loops. -/
def putInt (dst src : List Nat) (n : Nat) : List Nat :=
  applyWrites dst (putIntWrites src n)

end Gpumaths

namespace Gpumaths

/-- C9: the byte length of every variant is exactly its bit length
divided by 8, with no remainder, and both are fixed constants of the
(immutable) variant definition. -/
theorem variant_byteLen_eq_bitLen_div_eight (v : Variant) :
    getByteLen v = getBitLen v / 8 ∧ getByteLen v * 8 = getBitLen v := by
  cases v <;> exact ⟨rfl, rfl⟩

/-- C6: `maxSlots` computes `max 0 (floor ((memSize - constantsCost) / slotCost))`
for every positive per-slot cost, and in particular returns 0 (raising no
error) whenever the budget is below the constants cost. -/
theorem maxSlots_formula (g : KernelSizes) (memSize : Int)
    (hslot : 0 < g.inputSize + g.outputSize) :
    maxSlots g memSize
      = max 0 ((memSize - g.constantsSize) / (g.inputSize + g.outputSize)) ∧
    (memSize < g.constantsSize → maxSlots g memSize = 0) := by
  constructor
  · unfold maxSlots
    by_cases h : memSize - g.constantsSize < 0
    · simp only [h, if_pos]
      have hneg : (memSize - g.constantsSize) / (g.inputSize + g.outputSize) < 0 :=
        Int.ediv_neg' h hslot
      omega
    · simp only [h, if_neg, not_false_iff]
      push_neg at h
      have htd : (memSize - g.constantsSize).tdiv (g.inputSize + g.outputSize)
          = (memSize - g.constantsSize) / (g.inputSize + g.outputSize) :=
        Int.tdiv_eq_ediv h (le_of_lt hslot)
      have hnn : 0 ≤ (memSize - g.constantsSize) / (g.inputSize + g.outputSize) :=
        Int.ediv_nonneg h (le_of_lt hslot)
      omega
  · intro hlt
    unfold maxSlots
    have : memSize - g.constantsSize < 0 := by omega
    simp [this]

/-- C6 witness: a concrete evaluation of the formula. -/
theorem maxSlots_formula_witness :
    (maxSlots ⟨8, 3, 4⟩ 30 = max 0 ((30 - 8) / (3 + 4)) ∧
      ((30 : Int) < 8 → maxSlots ⟨8, 3, 4⟩ 30 = 0)) ∧
    (maxSlots ⟨8, 3, 4⟩ 5 = max 0 ((5 - 8) / (3 + 4)) ∧
      ((5 : Int) < 8 → maxSlots ⟨8, 3, 4⟩ 5 = 0)) :=
  ⟨maxSlots_formula ⟨8, 3, 4⟩ 30 (by decide),
   maxSlots_formula ⟨8, 3, 4⟩ 5 (by decide)⟩

/-- C1: sizing round-trips: for every kernel with positive per-slot cost
and every nonnegative item count `n`, `maxSlots` applied to the memory
size returned by `streamSizeContaining n` recovers exactly `n`. -/
theorem maxSlots_streamSizeContaining_roundTrip (g : KernelSizes) (n : Int)
    (hslot : 0 < g.inputSize + g.outputSize) (hn : 0 ≤ n) :
    maxSlots g (streamSizeContaining g n) = n := by
  have hne : g.inputSize + g.outputSize ≠ 0 := ne_of_gt hslot
  have hnonneg : 0 ≤ (g.inputSize + g.outputSize) * n :=
    mul_nonneg (le_of_lt hslot) hn
  simp only [maxSlots, streamSizeContaining]
  have hkey : g.inputSize * n + g.outputSize * n + g.constantsSize - g.constantsSize
      = (g.inputSize + g.outputSize) * n := by ring
  rw [hkey, if_neg (not_lt.mpr hnonneg), Int.mul_tdiv_cancel_left n hne]

/-- C1 witness: the round trip at a concrete kernel size and item count. -/
theorem maxSlots_streamSizeContaining_roundTrip_witness :
    maxSlots ⟨8, 3, 4⟩ (streamSizeContaining ⟨8, 3, 4⟩ 5) = 5 :=
  maxSlots_streamSizeContaining_roundTrip ⟨8, 3, 4⟩ 5 (by decide) (by decide)

/-- C5: `chooseEnv` returns the variant with the smallest supported bit
width at least the prime's bit length whenever it is at most 4096, and
panics (returns no variant) whenever the prime's bit length exceeds 4096. -/
theorem chooseEnv_smallest_fit (p : Nat) :
    (p ≤ 4096 → ∃ v, chooseEnv p = some v ∧ p ≤ getBitLen v ∧
      ∀ w ∈ supportedWidths, p ≤ w → getBitLen v ≤ w) ∧
    (4096 < p → chooseEnv p = none) := by
  constructor
  · intro hp
    by_cases h1 : p ≤ 2048
    · refine ⟨.v2048, ?_, ?_, ?_⟩
      · simp [chooseEnv, getBitLen, h1]
      · exact h1
      · intro w hw hpw
        have hw' : w = 2048 ∨ w = 3200 ∨ w = 4096 := by
          simpa [supportedWidths, getBitLen] using hw
        simp only [getBitLen]
        omega
    · by_cases h2 : p ≤ 3200
      · refine ⟨.v3200, ?_, ?_, ?_⟩
        · simp [chooseEnv, getBitLen, h1, h2]
        · exact h2
        · intro w hw hpw
          have hw' : w = 2048 ∨ w = 3200 ∨ w = 4096 := by
            simpa [supportedWidths, getBitLen] using hw
          simp only [getBitLen]
          omega
      · refine ⟨.v4096, ?_, ?_, ?_⟩
        · simp [chooseEnv, getBitLen, h1, h2, hp]
        · exact hp
        · intro w hw hpw
          have hw' : w = 2048 ∨ w = 3200 ∨ w = 4096 := by
            simpa [supportedWidths, getBitLen] using hw
          simp only [getBitLen]
          omega
  · intro hp
    simp only [chooseEnv, getBitLen]
    have h1 : ¬ p ≤ 2048 := by omega
    have h2 : ¬ p ≤ 3200 := by omega
    have h3 : ¬ p ≤ 4096 := by omega
    simp [h1, h2, h3]

/-- C5 witness: concrete selections at prime bit lengths 3000 and 5000. -/
theorem chooseEnv_smallest_fit_witness :
    (∃ v, chooseEnv 3000 = some v ∧ 3000 ≤ getBitLen v ∧
      ∀ w ∈ supportedWidths, 3000 ≤ w → getBitLen v ≤ w) ∧
    chooseEnv 5000 = none :=
  ⟨(chooseEnv_smallest_fit 3000).1 (by decide),
   (chooseEnv_smallest_fit 5000).2 (by decide)⟩

end Gpumaths

namespace Gpumaths

theorem applyWrites_append (dst : List Nat) (a b : List (Nat × Nat)) :
    applyWrites dst (a ++ b) = applyWrites (applyWrites dst a) b :=
  List.foldl_append _ _ _ _

/-- The first `putInt` loop writes the reverse of `src` over the first
`len(src)` entries of the destination. -/
theorem applyWrites_revLoop (src : List Nat) : ∀ dst : List Nat,
    src.length ≤ dst.length →
    applyWrites dst
      ((List.range src.length).map (fun i => (src.length - i - 1, src.getD i 0)))
    = src.reverse ++ dst.drop src.length := by
  induction src with
  | nil => intro dst h; simp [applyWrites]
  | cons a s ih =>
    intro dst h
    have hlen : s.length < dst.length := by
      simpa using h
    have hfun : ((fun i => (s.length + 1 - i - 1, (a :: s).getD i 0)) ∘ Nat.succ)
        = (fun i => (s.length - i - 1, s.getD i 0)) := by
      funext i
      simp only [Function.comp_apply, Nat.succ_eq_add_one,
        List.getD_cons_succ, Prod.mk.injEq]
      exact ⟨by omega, trivial⟩
    have hmap : (List.range (a :: s).length).map
        (fun i => ((a :: s).length - i - 1, (a :: s).getD i 0))
        = (s.length, a) ::
          (List.range s.length).map (fun i => (s.length - i - 1, s.getD i 0)) := by
      rw [List.length_cons, List.range_succ_eq_map, List.map_cons, List.map_map, hfun]
      simp
    rw [hmap]
    show applyWrites (dst.set s.length a)
        ((List.range s.length).map (fun i => (s.length - i - 1, s.getD i 0)))
      = (a :: s).reverse ++ dst.drop (a :: s).length
    rw [ih (dst.set s.length a) (by simpa using le_of_lt hlen)]
    have hdrop : (dst.set s.length a).drop s.length
        = a :: dst.drop (s.length + 1) := by
      rw [List.drop_set, if_neg (lt_irrefl _), Nat.sub_self,
        List.drop_eq_getElem_cons hlen, List.set_cons_zero]
    rw [hdrop]
    simp

/-- The second `putInt` loop zeroes the entries from `start` up to
`start + k - 1`, leaving the rest of the buffer unchanged. -/
theorem applyWrites_zeroLoop : ∀ (k start : Nat) (dst : List Nat),
    start + k ≤ dst.length →
    applyWrites dst ((List.range' start k).map (fun i => (i, 0)))
    = dst.take start ++ List.replicate k 0 ++ dst.drop (start + k) := by
  intro k
  induction k with
  | zero => intro start dst h; simp [applyWrites]
  | succ k ih =>
    intro start dst h
    have hstart : start < dst.length := by omega
    rw [List.range'_succ, List.map_cons]
    show applyWrites (dst.set start 0)
        ((List.range' (start + 1) k).map (fun i => (i, 0)))
      = dst.take start ++ List.replicate (k + 1) 0 ++ dst.drop (start + (k + 1))
    rw [ih (start + 1) (dst.set start 0) (by simpa using (by omega : start + 1 + k ≤ dst.length))]
    have htake : (dst.set start 0).take (start + 1) = dst.take start ++ [0] := by
      rw [List.set_take, List.take_succ, List.getElem?_eq_getElem hstart]
      rw [List.set_append]
      have hl : (dst.take start).length = start := by
        simp [List.length_take, Nat.min_eq_left (le_of_lt hstart)]
      simp [hl]
    have hdrop : (dst.set start 0).drop (start + 1 + k) = dst.drop (start + 1 + k) := by
      rw [List.drop_set]
      simp only [if_pos (by omega : start < start + 1 + k)]
    rw [htake, hdrop]
    have harith : start + 1 + k = start + (k + 1) := by omega
    rw [harith]
    simp [List.replicate_succ]

theorem length_applyWrites (ws : List (Nat × Nat)) : ∀ dst : List Nat,
    (applyWrites dst ws).length = dst.length := by
  induction ws with
  | nil => intro dst; rfl
  | cons w rest ih =>
    intro dst
    show (applyWrites (dst.set w.1 w.2) rest).length = dst.length
    rw [ih (dst.set w.1 w.2), List.length_set]

end Gpumaths

namespace Gpumaths

/-- C2 (amended): `putInt` stores the source value's bytes in reversed
order at the start of the field and pads the remaining positions up to
the declared width `n` with trailing zero bytes, so the serialized field
is the byte-reversed value right-padded with zeros (not the big-endian
value left-padded with leading zeros). -/
theorem putInt_reversed_rightPadded (dst src : List Nat) (n : Nat)
    (hsrc : src.length ≤ n) (hn : n ≤ dst.length) :
    putInt dst src n
      = src.reverse ++ List.replicate (n - src.length) 0 ++ dst.drop n := by
  unfold putInt putIntWrites
  rw [applyWrites_append,
    applyWrites_revLoop src dst (le_trans hsrc hn)]
  have hd1len : (src.reverse ++ dst.drop src.length).length = dst.length := by
    simp only [List.length_append, List.length_reverse, List.length_drop]
    omega
  rw [applyWrites_zeroLoop (n - src.length) src.length
    (src.reverse ++ dst.drop src.length) (by omega)]
  have hrevlen : src.reverse.length = src.length := List.length_reverse src
  have htake : (src.reverse ++ dst.drop src.length).take src.length
      = src.reverse := List.take_left' hrevlen
  have harith : src.length + (n - src.length) = n := by omega
  have hdrop : (src.reverse ++ dst.drop src.length).drop
      (src.length + (n - src.length)) = dst.drop n := by
    have h1 : (src.reverse ++ dst.drop src.length).drop
        (src.length + (n - src.length))
        = (dst.drop src.length).drop (n - src.length) := by
      have h2 := @List.drop_append Nat src.reverse (dst.drop src.length)
        (n - src.length)
      rwa [hrevlen] at h2
    rw [h1, List.drop_drop, harith]
  rw [htake, hdrop]

/-- C2 witness: the amended characterization at a concrete field. -/
theorem putInt_reversed_rightPadded_witness :
    putInt [7, 7, 7, 7] [1, 2] 3
      = List.reverse [1, 2] ++
        List.replicate (3 - List.length [1, 2]) 0 ++ List.drop 3 [7, 7, 7, 7] :=
  putInt_reversed_rightPadded [7, 7, 7, 7] [1, 2] 3 (by decide) (by decide)

/-- C2 counterexample: at `dst = [7,7,7]`, `src = [1,2]`, `n = 3` the
serializer produces `[2, 1, 0]` (reversed bytes, trailing zero), which
differs from the left-padded big-endian field `[0, 1, 2]` that the claim
asserts. -/
theorem putInt_ne_leftPadded_bigEndian :
    putInt [7, 7, 7] [1, 2] 3 = [2, 1, 0] ∧
    putInt [7, 7, 7] [1, 2] 3 ≠ List.replicate (3 - List.length [1, 2]) 0 ++ [1, 2] := by
  constructor
  · rfl
  · intro hcontra
    simp only [List.length_cons, List.length_nil] at hcontra
    exact absurd hcontra (by decide)

/-- C10: the write trace of `putInt dst src n` touches exactly the
indices `0 .. max (len src) n - 1`: every store is either a reversed
source byte at an index below `len src` or a zero at an index in
`[len src, n)`, every such index is stored to, and hence all stores land
within `dst` precisely when `len dst ≥ max (len src) n`. -/
theorem putInt_writes_exactly (src : List Nat) (n : Nat) (dst : List Nat) :
    (∀ j v, (j, v) ∈ putIntWrites src n →
      (j < src.length ∧ v = src.getD (src.length - 1 - j) 0) ∨
      (src.length ≤ j ∧ j < n ∧ v = 0)) ∧
    (∀ j, j < max src.length n → ∃ v, (j, v) ∈ putIntWrites src n) ∧
    ((∀ w ∈ putIntWrites src n, w.1 < dst.length) ↔
      max src.length n ≤ dst.length) := by
  have hchar : ∀ j v, (j, v) ∈ putIntWrites src n →
      (j < src.length ∧ v = src.getD (src.length - 1 - j) 0) ∨
      (src.length ≤ j ∧ j < n ∧ v = 0) := by
    intro j v hjv
    rcases List.mem_append.mp hjv with hfirst | hsecond
    · obtain ⟨i, hi, hfi⟩ := List.mem_map.mp hfirst
      rw [List.mem_range] at hi
      obtain ⟨hj, hv⟩ := Prod.mk.injEq .. ▸ hfi
      left
      constructor
      · omega
      · have hidx : src.length - 1 - j = i := by omega
        rw [hidx, hv]
    · obtain ⟨i, hi, hfi⟩ := List.mem_map.mp hsecond
      rw [List.mem_range'_1] at hi
      obtain ⟨hj, hv⟩ := Prod.mk.injEq .. ▸ hfi
      right
      refine ⟨by omega, by omega, hv.symm⟩
  refine ⟨hchar, ?_, ?_⟩
  · intro j hj
    by_cases hjs : j < src.length
    · refine ⟨src.getD (src.length - 1 - j) 0, List.mem_append_left _ ?_⟩
      apply List.mem_map.mpr
      refine ⟨src.length - 1 - j, List.mem_range.mpr (by omega), ?_⟩
      have : src.length - (src.length - 1 - j) - 1 = j := by omega
      rw [this]
    · refine ⟨0, List.mem_append_right _ ?_⟩
      apply List.mem_map.mpr
      refine ⟨j, List.mem_range'_1.mpr (by omega), rfl⟩
  · constructor
    · intro hbound
      by_cases hzero : max src.length n = 0
      · omega
      · have hidx : max src.length n - 1 < max src.length n := by omega
        by_cases hjs : max src.length n - 1 < src.length
        · have hmem : (max src.length n - 1,
              src.getD (src.length - 1 - (max src.length n - 1)) 0)
              ∈ putIntWrites src n := by
            apply List.mem_append_left
            apply List.mem_map.mpr
            refine ⟨src.length - 1 - (max src.length n - 1),
              List.mem_range.mpr (by omega), ?_⟩
            have : src.length - (src.length - 1 - (max src.length n - 1)) - 1
                = max src.length n - 1 := by omega
            rw [this]
          have := hbound _ hmem
          simp only at this
          omega
        · have hmem : (max src.length n - 1, 0) ∈ putIntWrites src n := by
            apply List.mem_append_right
            apply List.mem_map.mpr
            refine ⟨max src.length n - 1, List.mem_range'_1.mpr (by omega), rfl⟩
          have := hbound _ hmem
          simp only at this
          omega
    · intro hle w hw
      rcases hchar w.1 w.2 hw with ⟨h1, _⟩ | ⟨_, h2, _⟩ <;> omega

/-- C10 witness: concrete instances of the write-trace characterization
of `putInt` on `src = [1,2]`, `n = 3`. -/
theorem putInt_writes_exactly_witness :
    (((0 : Nat) < List.length [1, 2] ∧
        (2 : Nat) = List.getD [1, 2] (List.length [1, 2] - 1 - 0) 0) ∨
      (List.length [1, 2] ≤ 0 ∧ 0 < 3 ∧ (2 : Nat) = 0)) ∧
    (∃ v, ((2 : Nat), v) ∈ putIntWrites [1, 2] 3) :=
  ⟨(putInt_writes_exactly [1, 2] 3 [7, 7, 7]).1 0 2 (by decide),
   (putInt_writes_exactly [1, 2] 3 [7, 7, 7]).2.1 2 (by decide)⟩

end Gpumaths

namespace Gpumaths

/-- The outcome of one native `C.createStream` call: `result` is the
stream handle when one was allocated (handles are modelled as `Nat`),
`error` the native error string when the call failed.  A run of
`createStreams` is determined by the sequence of such outcomes. -/
structure CreateStreamResult where
  result : Option Nat
  error : Option String
deriving DecidableEq, Repr

/-- The loop of `createStreams` in gpu.go over the trace of native call
outcomes, carrying the `streams` slice built so far.  Each iteration
appends the new handle when `result` is non-nil; when `error` is non-nil
it destroys every stream created so far (returned as the second
component) and returns a nil slice (`none`).  On success it returns the
full slice and destroys nothing. -/
def createStreamsLoop (calls : List CreateStreamResult) (streams : List Nat) :
    Option (List Nat) × List Nat :=
  match calls with
  | [] => (some streams, [])
  | r :: rest =>
    let streams1 := match r.result with
      | some s => streams ++ [s]
      | none => streams
    match r.error with
    | some _ => (none, streams1)
    | none => createStreamsLoop rest streams1

/-- `createStreams` from gpu.go, over a trace of `numStreams` native
call outcomes, starting from the empty slice. -/
def createStreams (calls : List CreateStreamResult) :
    Option (List Nat) × List Nat :=
  createStreamsLoop calls []

/-- The handles allocated by the native calls that the `createStreams`
loop actually performs: every call up to and including the first one
that reports an error. -/
def createdHandles : List CreateStreamResult → List Nat
  | [] => []
  | r :: rest =>
    let here := match r.result with
      | some s => [s]
      | none => []
    match r.error with
    | some _ => here
    | none => here ++ createdHandles rest

/-- Whether some native call outcome in the trace carries an error. -/
def anyCreateError (calls : List CreateStreamResult) : Bool :=
  calls.any (fun r => r.error.isSome)

/-- The outcome of the native `C.destroyStream` call on each handle,
`none` meaning success. -/
def destroyStreamsLoop (destroyErr : Nat → Option String) :
    List Nat → List Nat × Option String
  | [] => ([], none)
  | s :: rest =>
    match destroyErr s with
    | some e => ([s], some e)
    | none =>
      let r := destroyStreamsLoop destroyErr rest
      (s :: r.1, r.2)

end Gpumaths

namespace Gpumaths

theorem createStreamsLoop_error (calls : List CreateStreamResult) :
    ∀ acc : List Nat, anyCreateError calls = true →
    (createStreamsLoop calls acc).1 = none ∧
    (createStreamsLoop calls acc).2 = acc ++ createdHandles calls := by
  induction calls with
  | nil => intro acc h; simp [anyCreateError] at h
  | cons r rest ih =>
    intro acc h
    cases herr : r.error with
    | some e =>
      cases hres : r.result with
      | some s =>
        simp [createStreamsLoop, createdHandles, hres, herr]
      | none =>
        simp [createStreamsLoop, createdHandles, hres, herr]
    | none =>
      have hrest : anyCreateError rest = true := by
        simp only [anyCreateError, List.any_cons, herr, Option.isSome_none,
          Bool.false_or] at h
        exact h
      cases hres : r.result with
      | some s =>
        have := ih (acc ++ [s]) hrest
        simp [createStreamsLoop, createdHandles, hres, herr, this.1, this.2]
      | none =>
        have := ih acc hrest
        simp [createStreamsLoop, createdHandles, hres, herr, this.1, this.2]

/-- C4: whenever some native stream creation in the trace fails,
`createStreams` returns a nil stream slice together with the error case,
and the set of streams it destroys before returning is exactly the set
of handles allocated by the calls it made: no already-created stream is
left undestroyed. -/
theorem createStreams_unwinds_on_failure (calls : List CreateStreamResult)
    (herr : anyCreateError calls = true) :
    (createStreams calls).1 = none ∧
    (createStreams calls).2 = createdHandles calls := by
  have h := createStreamsLoop_error calls [] herr
  simpa [createStreams] using h

/-- C4 witness: a trace where the third call fails after two handles
were allocated; both are destroyed and no slice is returned. -/
theorem createStreams_unwinds_on_failure_witness :
    (createStreams [⟨some 4, none⟩, ⟨some 7, none⟩, ⟨none, some "oom"⟩]).1 = none ∧
    (createStreams [⟨some 4, none⟩, ⟨some 7, none⟩, ⟨none, some "oom"⟩]).2
      = createdHandles [⟨some 4, none⟩, ⟨some 7, none⟩, ⟨none, some "oom"⟩] :=
  createStreams_unwinds_on_failure
    [⟨some 4, none⟩, ⟨some 7, none⟩, ⟨none, some "oom"⟩] (by decide)

end Gpumaths

namespace Gpumaths

theorem destroyStreamsLoop_ok (destroyErr : Nat → Option String) :
    ∀ streams : List Nat, (∀ s ∈ streams, destroyErr s = none) →
    destroyStreamsLoop destroyErr streams = (streams, none) := by
  intro streams
  induction streams with
  | nil => intro _; rfl
  | cons a rest ih =>
    intro hok
    have ha : destroyErr a = none := hok a (by simp)
    have hrest := ih (fun s hs => hok s (by simp [hs]))
    simp [destroyStreamsLoop, ha, hrest]

theorem destroyStreamsLoop_fail (destroyErr : Nat → Option String) :
    ∀ (pre : List Nat) (s : Nat) (post : List Nat) (e : String),
    (∀ x ∈ pre, destroyErr x = none) → destroyErr s = some e →
    destroyStreamsLoop destroyErr (pre ++ s :: post) = (pre ++ [s], some e) := by
  intro pre
  induction pre with
  | nil =>
    intro s post e _ hs
    simp [destroyStreamsLoop, hs]
  | cons a rest ih =>
    intro s post e hok hs
    have ha : destroyErr a = none := hok a (by simp)
    have htail := ih s post e (fun x hx => hok x (by simp [hx])) hs
    simp [destroyStreamsLoop, ha, htail]

/-- C3 (amended): `destroyStreams` destroys the streams in order only up
to the first failing `destroyStream` call: when every native destroy
succeeds it destroys every stream and reports no error, but when the
call fails on some stream it reports that error immediately and the
streams after the failing one are never passed to the native destroy. -/
theorem destroyStreams_stop_at_first_failure (destroyErr : Nat → Option String)
    (streams : List Nat) :
    ((∀ s ∈ streams, destroyErr s = none) →
      destroyStreamsLoop destroyErr streams = (streams, none)) ∧
    (∀ (pre : List Nat) (s : Nat) (post : List Nat) (e : String),
      streams = pre ++ s :: post →
      (∀ x ∈ pre, destroyErr x = none) → destroyErr s = some e →
      destroyStreamsLoop destroyErr streams = (pre ++ [s], some e)) := by
  constructor
  · exact destroyStreamsLoop_ok destroyErr streams
  · intro pre s post e hsplit hok hs
    rw [hsplit]
    exact destroyStreamsLoop_fail destroyErr pre s post e hok hs

/-- A concrete native destroy outcome: destroying handle 0 fails with an
error string, every other handle succeeds. -/
def failOnZero : Nat → Option String :=
  fun s => if s = 0 then some "cudaErrorInvalidValue" else none

/-- C3 counterexample: on the stream list `[0, 1]` where destroying
stream 0 fails, `destroyStreams` reports the error but never attempts to
destroy stream 1, so a later stream is left undestroyed because an
earlier one failed — against the claim. -/
theorem destroyStreams_abandons_rest_on_failure :
    destroyStreamsLoop failOnZero [0, 1] = ([0], some "cudaErrorInvalidValue") ∧
    (1 : Nat) ∉ (destroyStreamsLoop failOnZero [0, 1]).1 := by
  refine ⟨rfl, ?_⟩
  intro hmem
  rw [show destroyStreamsLoop failOnZero [0, 1]
      = ([0], some "cudaErrorInvalidValue") from rfl] at hmem
  simp at hmem

/-- C3 witness: the amended behaviour at concrete inputs: an all-success
teardown destroys both streams, and a teardown whose second stream fails
destroys only the first two. -/
theorem destroyStreams_stop_at_first_failure_witness :
    destroyStreamsLoop failOnZero [1, 2] = ([1, 2], none) ∧
    destroyStreamsLoop failOnZero [1, 0, 2] = ([1] ++ [0], some "cudaErrorInvalidValue") :=
  ⟨(destroyStreams_stop_at_first_failure failOnZero [1, 2]).1 (by decide),
   (destroyStreams_stop_at_first_failure failOnZero [1, 0, 2]).2
     [1] 0 [2] "cudaErrorInvalidValue" rfl (by decide) rfl⟩

end Gpumaths

namespace StubBuild

/-- The `Stream` type of the no-accelerator build (the `!linux !gpu`
stub file): an empty struct. -/
structure Stream where
deriving DecidableEq, Repr

/-- The `StreamPool` type of the no-accelerator build: an empty struct. -/
structure StreamPool where
deriving DecidableEq, Repr

/-- The stub build's error string. -/
def unsupportedMsg : String :=
  "gpumaths stubbed build doesn't support CUDA stream pool"

/-- Stub `NewStreamPool`: returns a nil pool and the unsupported error,
for all inputs. -/
def NewStreamPool (numStreams : Int) (memSize : Int) :
    Option StreamPool × Option String :=
  (none, some unsupportedMsg)

/-- Stub `Stream.GetMaxSlotsExp`: always 0. -/
def Stream.GetMaxSlotsExp (s : Stream) : Int := 0

/-- Stub `Stream.GetMaxSlotsElGamal`: always 0. -/
def Stream.GetMaxSlotsElGamal (s : Stream) : Int := 0

/-- Stub `StreamPool.TakeStream`: returns an empty stream value. -/
def StreamPool.TakeStream (sm : StreamPool) : Stream := {}

/-- Stub `StreamPool.ReturnStream`: does nothing. -/
def StreamPool.ReturnStream (sm : StreamPool) (s : Stream) : Unit := ()

/-- Stub `StreamPool.Destroy`: always the unsupported error. -/
def StreamPool.Destroy (sm : StreamPool) : Option String :=
  some unsupportedMsg

/-- Stub package-level `MaxSlots`: always 0. -/
def MaxSlots (memSize : Int) (op : Int) : Int := 0

/-- Stub package-level `streamSizeContaining`: always 0. -/
def streamSizeContaining (numItems : Int) (kernel : Int) : Int := 0

end StubBuild

namespace Gpumaths

/-- C7: in the no-accelerator build, `NewStreamPool` and `Destroy`
deterministically fail with the descriptive unsupported-CUDA error for
all inputs, and every sizing query (`MaxSlots`, `streamSizeContaining`,
`GetMaxSlotsExp`, `GetMaxSlotsElGamal`) returns 0 for all inputs. -/
theorem stub_build_unsupported_and_zero :
    (∀ numStreams memSize : Int,
      StubBuild.NewStreamPool numStreams memSize
        = (none, some StubBuild.unsupportedMsg)) ∧
    (∀ p : StubBuild.StreamPool, p.Destroy = some StubBuild.unsupportedMsg) ∧
    (∀ memSize op : Int, StubBuild.MaxSlots memSize op = 0) ∧
    (∀ numItems kernel : Int, StubBuild.streamSizeContaining numItems kernel = 0) ∧
    (∀ s : StubBuild.Stream, s.GetMaxSlotsExp = 0) ∧
    (∀ s : StubBuild.Stream, s.GetMaxSlotsElGamal = 0) :=
  ⟨fun _ _ => rfl, fun _ => rfl, fun _ _ => rfl, fun _ _ => rfl,
   fun _ => rfl, fun _ => rfl⟩

end Gpumaths

namespace Gpumaths

/-- Modelled from the spec: the GPU-build `StreamPool` checkout state.
The GPU-build pool implementation (`NewStreamPool`, `TakeStream`,
`ReturnStream` over a channel of streams) is not among the sources, only
its stub and callers are; per the spec the pool is "a bounded collection
of pre-allocated execution contexts" with "mutually-exclusive
checkout/return semantics".  `available` holds the idle streams,
`checkedOut` the outstanding checkouts (streams are handles, `Nat`). -/
structure PoolState where
  available : List Nat
  checkedOut : List Nat
deriving DecidableEq, Repr

/-- Modelled from the spec: one pool transition.  `takeStream` hands an
idle stream to a caller (blocking forever when none is idle: no
transition exists from an empty `available` list); `returnStream` puts
an outstanding checkout back into the idle set. -/
inductive PoolStep : PoolState → PoolState → Prop where
  | takeStream (x : Nat) (rest out : List Nat) :
      PoolStep ⟨x :: rest, out⟩ ⟨rest, x :: out⟩
  | returnStream (x : Nat) (avail out1 out2 : List Nat) :
      PoolStep ⟨avail, out1 ++ x :: out2⟩ ⟨x :: avail, out1 ++ out2⟩

/-- Modelled from the spec: the states a pool opened over `streams` can
reach: initially every stream is idle and none is checked out. -/
def PoolReachable (streams : List Nat) (s : PoolState) : Prop :=
  Relation.ReflTransGen PoolStep ⟨streams, []⟩ s

theorem poolReachable_invariant (streams : List Nat) (s : PoolState)
    (h : PoolReachable streams s) :
    s.available.length + s.checkedOut.length = streams.length ∧
    (∀ x, x ∈ s.available ∨ x ∈ s.checkedOut → x ∈ streams) := by
  induction h with
  | refl =>
    refine ⟨by simp, ?_⟩
    intro x hx
    rcases hx with hx | hx
    · exact hx
    · simp at hx
  | tail hab hbc ih =>
    obtain ⟨ihlen, ihmem⟩ := ih
    cases hbc with
    | takeStream x rest out =>
      refine ⟨?_, ?_⟩
      · simp only [List.length_cons] at ihlen ⊢
        omega
      · intro y hy
        apply ihmem
        rcases hy with hy | hy
        · exact Or.inl (List.mem_cons_of_mem x hy)
        · rcases List.mem_cons.mp hy with rfl | hy
          · exact Or.inl (List.mem_cons_self _ _)
          · exact Or.inr hy
    | returnStream x avail out1 out2 =>
      refine ⟨?_, ?_⟩
      · simp only [List.length_cons, List.length_append] at ihlen ⊢
        omega
      · intro y hy
        apply ihmem
        rcases hy with hy | hy
        · rcases List.mem_cons.mp hy with rfl | hy
          · exact Or.inr (List.mem_append.mpr (Or.inr (List.mem_cons_self _ _)))
          · exact Or.inl hy
        · rcases List.mem_append.mp hy with hy | hy
          · exact Or.inr (List.mem_append.mpr (Or.inl hy))
          · exact Or.inr (List.mem_append.mpr (Or.inr (List.mem_cons_of_mem x hy)))

/-- C8: in every reachable state of a pool opened over `streams`
(`streamCount = length streams`), the number of simultaneously
checked-out streams never exceeds the configured stream count, and every
outstanding checkout is a member of the pool. -/
theorem pool_checkout_bound (streams : List Nat) (s : PoolState)
    (h : PoolReachable streams s) :
    s.checkedOut.length ≤ streams.length ∧
    ∀ x ∈ s.checkedOut, x ∈ streams := by
  obtain ⟨hlen, hmem⟩ := poolReachable_invariant streams s h
  exact ⟨by omega, fun x hx => hmem x (Or.inr hx)⟩

/-- C8 witness: the invariant at a concrete reachable state of a
two-stream pool after one checkout. -/
theorem pool_checkout_bound_witness :
    (PoolState.mk [20] [10]).checkedOut.length ≤ List.length [10, 20] ∧
    (10 : Nat) ∈ [10, 20] :=
  ⟨(pool_checkout_bound [10, 20] ⟨[20], [10]⟩
      (Relation.ReflTransGen.single (PoolStep.takeStream 10 [20] []))).1,
   (pool_checkout_bound [10, 20] ⟨[20], [10]⟩
      (Relation.ReflTransGen.single (PoolStep.takeStream 10 [20] []))).2
     10 (by decide)⟩

end Gpumaths
